import Mathlib

/-!
Verification development for the plant-station plotting script
(`data_plot.py`).  The script reads time-series sensor rows from a CSV
file, filters them to a look-back window, calibrates the four raw soil
moisture channels to a 0..1 wetness scale, smooths every tracked column
by quantile binning on the timestamp (`pd.qcut` with `duplicates='drop'`
and `groupby(..., observed=False)`), and renders the result.

The embedding works over `ℚ`.  Timestamps are modelled as rational
numbers (the script converts them with `.astype(int)` to integer
nanoseconds before binning, an injective monotone map, and the fixed
time-zone conversions are bijections on instants, so they are dropped
from the model).  Pandas floating point arithmetic is idealised as exact
rational arithmetic.  The pandas library behaviour that the script
relies on is embedded faithfully:

* `Series.quantile` with linear interpolation:
  `q(p) = s[i] + (h - i) * (s[i+1] - s[i])` with `h = p * (n - 1)`,
  `i = ⌊h⌋`, on the sorted values `s`;
* `pd.qcut(x, q, duplicates='drop')` computes `q + 1` quantile edges,
  removes duplicate edges unless exactly two edges were requested,
  and assigns the value `v` the interval index
  `searchsorted_left(edges, v)` (with values equal to the first edge
  forced into the first interval, `include_lowest`); values falling
  outside every interval - in particular every value when all edges
  collapse to one - are dropped as missing;
* `groupby(bins, observed=False)` emits one output row per surviving
  interval, in interval order, also for intervals that received no
  rows; the mean / median of an empty interval is missing (`none`);
* `Series.median`: middle element of the sorted values, or the average
  of the two middle elements for an even count;
* the quantiles of an empty column are all missing (`NaN`, modelled as
  `none`), and pandas `unique` collapses them to a single missing edge;
  when a missing edge survives together with at least one interval (the
  empty column with exactly two requested edges, which skip
  deduplication), the interval labels contain a null category and the
  `Categorical` construction raises instead of returning.
-/

/-- One CSV row: a timestamp plus the seven tracked sensor columns.
Column names follow the CSV header used by the script. -/
structure Row where
  Timestamp : ℚ
  Soil_Moisture_1 : ℚ
  Soil_Moisture_2 : ℚ
  Soil_Moisture_3 : ℚ
  Soil_Moisture_4 : ℚ
  Temperature_C : ℚ
  Pressure_hPa : ℚ
  Humidity_percent : ℚ
deriving DecidableEq, Repr

/-- Per-sensor dry calibration points (`dry_values` in the script). -/
def dry_values : List ℚ := [14500, 14500, 14500, 14500]

/-- Per-sensor wet calibration points (`wet_values` in the script). -/
def wet_values : List ℚ := [6000, 6300, 6100, 5800]

/-- Convert raw ADC value to a scale from 0 (dry) to 1 (wet);
embeds `scale_moisture` :
`1 - max(0, min(1, (raw_value - wet_value) / (dry_value - wet_value)))`. -/
def scale_moisture (raw_value dry_value wet_value : ℚ) : ℚ :=
  1 - max 0 (min 1 ((raw_value - wet_value) / (dry_value - wet_value)))

/-- The calibration loop of `save_plot`: each of the four soil moisture
channels is replaced by its scaled value, using the index-aligned
calibration constants. -/
def applyCalibration (r : Row) : Row :=
  { r with
    Soil_Moisture_1 :=
      scale_moisture r.Soil_Moisture_1 (dry_values.getD 0 0) (wet_values.getD 0 0)
    Soil_Moisture_2 :=
      scale_moisture r.Soil_Moisture_2 (dry_values.getD 1 0) (wet_values.getD 1 0)
    Soil_Moisture_3 :=
      scale_moisture r.Soil_Moisture_3 (dry_values.getD 2 0) (wet_values.getD 2 0)
    Soil_Moisture_4 :=
      scale_moisture r.Soil_Moisture_4 (dry_values.getD 3 0) (wet_values.getD 3 0) }

/-- Maximum of a list of rationals, seeded by the first element
(`Series.max` on a nonempty column; the `[]` case is never reached by
the script, which guards emptiness first). -/
def listMax : List ℚ → ℚ
  | [] => 0
  | a :: t => t.foldl max a

/-- Minimum of a list of rationals, seeded by the first element. -/
def listMin : List ℚ → ℚ
  | [] => 0
  | a :: t => t.foldl min a

/-- Latest timestamp of the dataset: `df["Timestamp"].max()`. -/
def latest_time (rows : List Row) : ℚ :=
  listMax (rows.map Row.Timestamp)

/-- Earliest timestamp of the dataset: `df["Timestamp"].min()`. -/
def earliest_time (rows : List Row) : ℚ :=
  listMin (rows.map Row.Timestamp)

/-- The look-back window filter of `save_plot`:
`df[df["Timestamp"] >= latest_time - timedelta(hours=hours)]`.
Durations and timestamps are measured in the same unit. -/
def windowFilter (rows : List Row) (hours : ℚ) : List Row :=
  rows.filter (fun r => decide (latest_time rows - hours ≤ r.Timestamp))

/-- Values of a list sorted non-decreasingly. -/
def sortAsc (l : List ℚ) : List ℚ :=
  List.insertionSort (fun a b => a ≤ b) l

/-- Linear interpolation into the sorted values `s` at fractional index
`h`: `s[⌊h⌋] + (h - ⌊h⌋) * (s[⌊h⌋+1] - s[⌊h⌋])`, the upper index
saturating at the last element. -/
def interpAt (s : List ℚ) (h : ℚ) : ℚ :=
  (s.getD (Int.floor h).toNat 0) +
    (h - ((Int.floor h).toNat : ℚ)) *
      (s.getD ((Int.floor h).toNat + 1) (s.getD (Int.floor h).toNat 0) -
        s.getD (Int.floor h).toNat 0)

/-- Linear-interpolation quantile of the already sorted values `s` at
probability `p` (`Series.quantile`, default `interpolation='linear'`):
interpolation at fractional index `h = p * (n - 1)`. -/
def quantileSorted (s : List ℚ) (p : ℚ) : ℚ :=
  interpAt s (p * ((s.length : ℚ) - 1))

/-- The `num_bins + 1` quantile values of a nonempty column at
probabilities `k / num_bins`, `k = 0, ..., num_bins`. -/
def realEdges (ts : List ℚ) (num_bins : ℕ) : List ℚ :=
  (List.range (num_bins + 1)).map
    (fun k : ℕ => quantileSorted (sortAsc ts) ((k : ℚ) / (num_bins : ℚ)))

/-- The `num_bins + 1` quantile edges computed by
`pd.qcut(x, num_bins, ...)`.  A missing edge (`NaN`) is modelled as
`none`: the quantiles of an empty column are all missing
(`Series.quantile` of an empty series returns `NaN` at every
probability), and those of a nonempty column are the interpolated
values. -/
def rawEdges (ts : List ℚ) (num_bins : ℕ) : List (Option ℚ) :=
  if ts = [] then List.replicate (num_bins + 1) none
  else (realEdges ts num_bins).map some

/-- Removal of duplicate edges (`duplicates='drop'`); the edge list is
non-decreasing (and pandas `unique` treats all `NaN`s as one value), so
removing consecutive duplicates is exactly pandas `unique`. -/
def dropDuplicateEdges {α : Type} [DecidableEq α] : List α → List α
  | [] => []
  | [a] => [a]
  | a :: b :: rest =>
      if a = b then dropDuplicateEdges (b :: rest)
      else a :: dropDuplicateEdges (b :: rest)

/-- The surviving edges of `pd.qcut(x, num_bins, duplicates='drop')`:
duplicate edges are removed unless exactly two edges were requested
(pandas skips deduplication when `len(bins) == 2`). -/
def qcutEdges (ts : List ℚ) (num_bins : ℕ) : List (Option ℚ) :=
  let e := rawEdges ts num_bins
  if e.length = 2 then e else dropDuplicateEdges e

/-- Whether the `pd.qcut` call raises: the interval labels are built
from the surviving edges, and when a missing edge survives together
with at least one interval (two or more surviving edges) the label
index contains a null interval, which the `Categorical` constructor
rejects (`Categorical categories cannot be null`).  A single surviving
edge yields zero intervals and zero categories, so nothing is null. -/
def qcutRaises (ts : List ℚ) (num_bins : ℕ) : Bool :=
  decide (2 ≤ (qcutEdges ts num_bins).length ∧ none ∈ qcutEdges ts num_bins)

/-- The usable (non-missing) final bin edges. -/
def binEdges (ts : List ℚ) (num_bins : ℕ) : List ℚ :=
  (qcutEdges ts num_bins).filterMap id

/-- Raw interval id of a value: `searchsorted(edges, v, side='left')`
on the sorted edge list - the number of edges strictly below `v` -
overridden to `1` when `v` equals the first edge (`include_lowest`). -/
def binIdOf (edges : List ℚ) (v : ℚ) : ℕ :=
  if edges.head? = some v then 1
  else edges.countP (fun e => decide (e < v))

/-- Interval assignment of a value by `pd.qcut`: id `0` (below every
interval) and id `len(edges)` (above every interval) are missing,
otherwise the value lands in interval `id - 1`. -/
def assignBin (edges : List ℚ) (v : ℚ) : Option ℕ :=
  let i := binIdOf edges v
  if i = 0 ∨ i = edges.length then none else some (i - 1)

/-- Number of surviving intervals: one less than the number of edges. -/
def binCount (ts : List ℚ) (num_bins : ℕ) : ℕ :=
  (binEdges ts num_bins).length - 1

/-- The rows of interval `i` (the group of the `i`-th bin category). -/
def binMembers (rows : List Row) (num_bins : ℕ) (i : ℕ) : List Row :=
  rows.filter
    (fun r =>
      decide (assignBin (binEdges (rows.map Row.Timestamp) num_bins) r.Timestamp = some i))

/-- Mean of a list of values; missing on the empty list
(`groupby(...).mean()` of an empty group is `NaN`). -/
def mean : List ℚ → Option ℚ
  | [] => none
  | a :: t => some ((a :: t).sum / ((a :: t).length : ℚ))

/-- Median of a list of values in the pandas sense: middle element of
the sorted values, or the average of the two middle elements for an
even count; missing on the empty list. -/
def median (l : List ℚ) : Option ℚ :=
  let s := sortAsc l
  if s.length = 0 then none
  else if s.length % 2 = 1 then some (s.getD (s.length / 2) 0)
  else some ((s.getD (s.length / 2 - 1) 0 + s.getD (s.length / 2) 0) / 2)

/-- Embeds `smooth_data(df, "Timestamp", y_col, num_bins)`: quantile-bin
the timestamps, then produce one output row per surviving interval, in
interval order (`observed=False`), holding the mean of the value column
over the interval's rows and the median of their timestamps.  The first
component is the aggregated value, the second the output `Timestamp`. -/
def smooth_data (rows : List Row) (col : Row → ℚ) (num_bins : ℕ) :
    List (Option ℚ × Option ℚ) :=
  (List.range (binCount (rows.map Row.Timestamp) num_bins)).map
    (fun i =>
      (mean ((binMembers rows num_bins i).map col),
       median ((binMembers rows num_bins i).map Row.Timestamp)))

/-- Possible states of the input CSV file seen by `save_plot`. -/
inductive CsvSource where
  /-- The file does not exist (`os.path.exists` is false). -/
  | missing : CsvSource
  /-- The file exists but holds no data at all (zero bytes / no header):
  `pd.read_csv` raises `EmptyDataError`, which `save_plot` does not
  catch (its `try` only wraps `pd.to_datetime`). -/
  | emptyFile : CsvSource
  /-- The file parses into a table; `badTimestamps` records whether
  `pd.to_datetime` on the `Timestamp` column raises (that exception is
  caught).  `rows` are the parsed data rows, possibly none. -/
  | table (badTimestamps : Bool) (rows : List Row) : CsvSource
deriving DecidableEq

/-- Outcome of one `save_plot` call. -/
inductive SaveResult where
  /-- Printed the file-not-found diagnostic and returned; no image. -/
  | skippedMissing : SaveResult
  /-- Printed the timestamp-parse diagnostic and returned; no image. -/
  | skippedParseError : SaveResult
  /-- Printed the no-data diagnostic and returned; no image. -/
  | skippedNoData : SaveResult
  /-- Wrote the image and printed the success message. -/
  | written : SaveResult
  /-- An exception propagated out of the call. -/
  | raised : SaveResult
deriving DecidableEq

/-- Control-flow model of `save_plot(hours, output_image)`: existence
check, CSV read, timestamp parse (wrapped in `try`), window filter,
empty-window check, then the transform/smooth/render pipeline followed
by `plt.savefig`. -/
def save_plot (src : CsvSource) (hours : ℚ) : SaveResult :=
  match src with
  | .missing => .skippedMissing
  | .emptyFile => .raised
  | .table true _ => .skippedParseError
  | .table false rows =>
      if (windowFilter rows hours).isEmpty then .skippedNoData else .written

/-- A row used to instantiate theorems at concrete inputs. -/
def sampleRow (t : ℚ) : Row :=
  { Timestamp := t
    Soil_Moisture_1 := 7000
    Soil_Moisture_2 := 7000
    Soil_Moisture_3 := 7000
    Soil_Moisture_4 := 7000
    Temperature_C := 20
    Pressure_hPa := 1000
    Humidity_percent := 50 }

/-! ### Basic facts about the calibration transform -/

/-- The clamp inside `scale_moisture` lies in `[0, 1]`, hence so does
the result. -/
theorem scale_moisture_mem (raw_value dry_value wet_value : ℚ) :
    0 ≤ scale_moisture raw_value dry_value wet_value ∧
      scale_moisture raw_value dry_value wet_value ≤ 1 := by
  unfold scale_moisture
  have h0 : (0 : ℚ) ≤ max 0 (min 1 ((raw_value - wet_value) / (dry_value - wet_value))) :=
    le_max_left _ _
  have h1 : max 0 (min 1 ((raw_value - wet_value) / (dry_value - wet_value))) ≤ 1 :=
    max_le (by norm_num) (min_le_left _ _)
  constructor <;> linarith

/-- C1: for every raw ADC value and calibration pair with
`dry_value ≠ wet_value`, `scale_moisture` returns exactly
`1 - clamp((raw - wet) / (dry - wet), 0, 1)`, and the result lies in
`[0, 1]`. -/
theorem C1_calibration_formula_and_range (raw_value dry_value wet_value : ℚ)
    (hne : dry_value ≠ wet_value) :
    scale_moisture raw_value dry_value wet_value =
        1 - max 0 (min 1 ((raw_value - wet_value) / (dry_value - wet_value))) ∧
      0 ≤ scale_moisture raw_value dry_value wet_value ∧
      scale_moisture raw_value dry_value wet_value ≤ 1 :=
  ⟨rfl, (scale_moisture_mem raw_value dry_value wet_value).1,
    (scale_moisture_mem raw_value dry_value wet_value).2⟩

/-- Witness for C1 at the first sensor's calibration pair. -/
theorem C1_witness :
    ((14500 : ℚ) ≠ 6000) ∧
      (scale_moisture 10000 14500 6000 =
          1 - max 0 (min 1 ((10000 - 6000) / ((14500 : ℚ) - 6000))) ∧
        0 ≤ scale_moisture 10000 14500 6000 ∧
        scale_moisture 10000 14500 6000 ≤ 1) :=
  ⟨by norm_num, C1_calibration_formula_and_range 10000 14500 6000 (by norm_num)⟩

/-- C7: with `wet < dry`, the calibration transform is `1` at and below
the wet point, `0` at and above the dry point, and non-increasing in the
raw value. -/
theorem C7_calibration_clamps_and_monotone (dry_value wet_value : ℚ)
    (h : wet_value < dry_value) :
    (∀ raw, raw ≤ wet_value → scale_moisture raw dry_value wet_value = 1) ∧
      (∀ raw, dry_value ≤ raw → scale_moisture raw dry_value wet_value = 0) ∧
      (∀ a b, a ≤ b →
        scale_moisture b dry_value wet_value ≤ scale_moisture a dry_value wet_value) := by
  have hd : (0 : ℚ) < dry_value - wet_value := sub_pos.mpr h
  refine ⟨?_, ?_, ?_⟩
  · intro raw hraw
    have hq : (raw - wet_value) / (dry_value - wet_value) ≤ 0 := by
      apply div_nonpos_of_nonpos_of_nonneg (by linarith) hd.le
    unfold scale_moisture
    rw [min_eq_right (by linarith), max_eq_left hq]
    ring
  · intro raw hraw
    have hq : 1 ≤ (raw - wet_value) / (dry_value - wet_value) :=
      (one_le_div hd).mpr (by linarith)
    unfold scale_moisture
    rw [min_eq_left hq, max_eq_right (by norm_num)]
    ring
  · intro a b hab
    have hq : (a - wet_value) / (dry_value - wet_value) ≤
        (b - wet_value) / (dry_value - wet_value) :=
      (div_le_div_right hd).mpr (by linarith)
    unfold scale_moisture
    have := max_le_max (le_refl (0 : ℚ)) (min_le_min (le_refl (1 : ℚ)) hq)
    linarith

/-- Witness for C7 at the first sensor's calibration pair. -/
theorem C7_witness :
    ((6000 : ℚ) < 14500) ∧
      ((∀ raw, raw ≤ (6000 : ℚ) → scale_moisture raw 14500 6000 = 1) ∧
        (∀ raw, (14500 : ℚ) ≤ raw → scale_moisture raw 14500 6000 = 0) ∧
        (∀ a b, a ≤ b → scale_moisture b 14500 6000 ≤ scale_moisture a 14500 6000)) :=
  ⟨by norm_num, C7_calibration_clamps_and_monotone 14500 6000 (by norm_num)⟩

/-- C8: when the scaled value lies strictly inside `(0, 1)`, inverting
via `raw = dry - scaled * (dry - wet)` recovers the raw value exactly,
and that value lies strictly between the two calibration points. -/
theorem C8_calibration_round_trip (raw_value dry_value wet_value : ℚ)
    (hne : dry_value ≠ wet_value)
    (h0 : 0 < scale_moisture raw_value dry_value wet_value)
    (h1 : scale_moisture raw_value dry_value wet_value < 1) :
    dry_value - scale_moisture raw_value dry_value wet_value * (dry_value - wet_value) =
        raw_value ∧
      min dry_value wet_value < raw_value ∧ raw_value < max dry_value wet_value := by
  have hd : dry_value - wet_value ≠ 0 := sub_ne_zero.mpr hne
  set q : ℚ := (raw_value - wet_value) / (dry_value - wet_value) with hqdef
  have hclamp1 : 0 < max 0 (min 1 q) := by
    unfold scale_moisture at h1
    rw [← hqdef] at h1
    by_contra hc
    push_neg at hc
    have : max 0 (min 1 q) = 0 := le_antisymm hc (le_max_left _ _)
    rw [this] at h1
    linarith
  have hmin : 0 < min 1 q := by
    rcases max_cases (0 : ℚ) (min 1 q) with ⟨he, _⟩ | ⟨he, _⟩
    · rw [he] at hclamp1; linarith
    · rwa [he] at hclamp1
  have hq0 : 0 < q := lt_of_lt_of_le hmin (min_le_right 1 q)
  have hclamp2 : max 0 (min 1 q) < 1 := by
    unfold scale_moisture at h0
    rw [← hqdef] at h0
    linarith
  have hq1 : q < 1 := by
    by_contra hc
    push_neg at hc
    rw [min_eq_left hc, max_eq_right (by norm_num : (0 : ℚ) ≤ 1)] at hclamp2
    linarith
  have hcl : max 0 (min 1 q) = q := by
    rw [min_eq_right hq1.le, max_eq_right hq0.le]
  have hscale : scale_moisture raw_value dry_value wet_value = 1 - q := by
    unfold scale_moisture
    rw [← hqdef, hcl]
  have hqd : q * (dry_value - wet_value) = raw_value - wet_value :=
    div_mul_cancel₀ _ hd
  refine ⟨by rw [hscale]; linarith, ?_, ?_⟩
  · rcases lt_or_gt_of_ne (sub_ne_zero.mpr hne) with hneg | hpos
    · rw [min_eq_left (by linarith)]
      nlinarith
    · rw [min_eq_right (by linarith)]
      nlinarith
  · rcases lt_or_gt_of_ne (sub_ne_zero.mpr hne) with hneg | hpos
    · rw [max_eq_right (by linarith)]
      nlinarith
    · rw [max_eq_left (by linarith)]
      nlinarith

/-- Witness for C8 at raw 10000, first sensor's calibration pair. -/
theorem C8_witness :
    ((14500 : ℚ) ≠ 6000) ∧ (0 < scale_moisture 10000 14500 6000) ∧
      (scale_moisture 10000 14500 6000 < 1) ∧
      ((14500 : ℚ) - scale_moisture 10000 14500 6000 * (14500 - 6000) = 10000 ∧
        min (14500 : ℚ) 6000 < 10000 ∧ (10000 : ℚ) < max 14500 6000) :=
  ⟨by norm_num, by norm_num [scale_moisture, min_def, max_def],
    by norm_num [scale_moisture, min_def, max_def],
    C8_calibration_round_trip 10000 14500 6000 (by norm_num)
      (by norm_num [scale_moisture, min_def, max_def])
      (by norm_num [scale_moisture, min_def, max_def])⟩

/-! ### The window filter -/

/-- The seed of a `max`-fold is below the result. -/
theorem le_foldl_max (l : List ℚ) (a : ℚ) : a ≤ l.foldl max a := by
  induction l generalizing a with
  | nil => simp
  | cons b t ih => exact le_trans (le_max_left a b) (ih (max a b))

/-- Every element of the list is below the `max`-fold. -/
theorem mem_le_foldl_max (l : List ℚ) (a x : ℚ) (hx : x ∈ l) : x ≤ l.foldl max a := by
  induction l generalizing a with
  | nil => cases hx
  | cons b t ih =>
      rcases List.mem_cons.mp hx with rfl | hxt
      · exact le_trans (le_max_right a x) (le_foldl_max t (max a x))
      · exact ih (max a b) hxt

/-- The seed of a `min`-fold is above the result. -/
theorem foldl_min_le (l : List ℚ) (a : ℚ) : l.foldl min a ≤ a := by
  induction l generalizing a with
  | nil => simp
  | cons b t ih => exact le_trans (ih (min a b)) (min_le_left a b)

/-- Every element of the list is above the `min`-fold. -/
theorem foldl_min_le_mem (l : List ℚ) (a x : ℚ) (hx : x ∈ l) : l.foldl min a ≤ x := by
  induction l generalizing a with
  | nil => cases hx
  | cons b t ih =>
      rcases List.mem_cons.mp hx with rfl | hxt
      · exact le_trans (foldl_min_le t (min a x)) (min_le_right a x)
      · exact ih (min a b) hxt

/-- Every row's timestamp is at most the latest timestamp. -/
theorem ts_le_latest (rows : List Row) (r : Row) (hr : r ∈ rows) :
    r.Timestamp ≤ latest_time rows := by
  cases rows with
  | nil => cases hr
  | cons s t =>
      rcases List.mem_cons.mp hr with rfl | hrt
      · exact le_foldl_max _ _
      · exact mem_le_foldl_max _ _ _ (List.mem_map_of_mem Row.Timestamp hrt)

/-- Every row's timestamp is at least the earliest timestamp. -/
theorem earliest_le_ts (rows : List Row) (r : Row) (hr : r ∈ rows) :
    earliest_time rows ≤ r.Timestamp := by
  cases rows with
  | nil => cases hr
  | cons s t =>
      rcases List.mem_cons.mp hr with rfl | hrt
      · exact foldl_min_le _ _
      · exact foldl_min_le_mem _ _ _ (List.mem_map_of_mem Row.Timestamp hrt)

/-- C2: on a nonempty dataset the window filter keeps exactly the rows
with timestamp in `[latest - H, latest]` (the upper bound is implied
because no timestamp exceeds the maximum), and a duration at least the
full time span keeps the whole dataset. -/
theorem C2_window_filter_exact (rows : List Row) (H : ℚ) (hne : rows ≠ []) :
    windowFilter rows H =
        rows.filter
          (fun r =>
            decide (latest_time rows - H ≤ r.Timestamp ∧
              r.Timestamp ≤ latest_time rows)) ∧
      (latest_time rows - earliest_time rows ≤ H → windowFilter rows H = rows) := by
  constructor
  · apply List.filter_congr
    intro r hr
    have hub : r.Timestamp ≤ latest_time rows := ts_le_latest rows r hr
    simp [hub]
  · intro hspan
    apply List.filter_eq_self.mpr
    intro r hr
    have hlb : earliest_time rows ≤ r.Timestamp := earliest_le_ts rows r hr
    simpa using by linarith

/-- Witness for C2 on a two-row dataset with `H = 5`. -/
theorem C2_witness :
    ([sampleRow 0, sampleRow 10] ≠ []) ∧
      (windowFilter [sampleRow 0, sampleRow 10] 5 =
          [sampleRow 0, sampleRow 10].filter
            (fun r =>
              decide (latest_time [sampleRow 0, sampleRow 10] - 5 ≤ r.Timestamp ∧
                r.Timestamp ≤ latest_time [sampleRow 0, sampleRow 10])) ∧
        (latest_time [sampleRow 0, sampleRow 10] -
              earliest_time [sampleRow 0, sampleRow 10] ≤ 5 →
          windowFilter [sampleRow 0, sampleRow 10] 5 = [sampleRow 0, sampleRow 10])) :=
  ⟨by simp, C2_window_filter_exact [sampleRow 0, sampleRow 10] 5 (by simp)⟩

/-! ### The save_plot driver -/

/-- C4 (amended): apart from the zero-byte-file case, no exception
escapes `save_plot`; the image is written exactly when the file exists,
the timestamps parse and the filtered window is nonempty; every other
case prints a diagnostic and returns without an image, and a parsed
table with zero data rows is such a skip (its filtered window is
empty). -/
theorem C4_skip_conditions (src : CsvSource) (H : ℚ)
    (h : src ≠ CsvSource.emptyFile) :
    (save_plot src H ≠ SaveResult.raised) ∧
      (save_plot src H = SaveResult.written ↔
        ∃ rows, src = CsvSource.table false rows ∧ windowFilter rows H ≠ []) ∧
      (∀ rows, src = CsvSource.table false rows → rows = [] →
        save_plot src H = SaveResult.skippedNoData) := by
  cases src with
  | missing => refine ⟨by simp [save_plot], by simp [save_plot], by simp⟩
  | emptyFile => exact absurd rfl h
  | table bad rows =>
      cases bad with
      | true => refine ⟨by simp [save_plot], by simp [save_plot], by simp⟩
      | false =>
          refine ⟨?_, ?_, ?_⟩
          · by_cases hw : (windowFilter rows H).isEmpty <;> simp [save_plot, hw]
          · constructor
            · intro hwrt
              by_cases hw : windowFilter rows H = []
              · simp [save_plot, hw] at hwrt
              · exact ⟨rows, rfl, hw⟩
            · rintro ⟨rows2, heq, hne2⟩
              cases heq
              simp [save_plot, List.isEmpty_iff, hne2]
          · intro rows2 heq hnil
            cases heq
            cases hnil
            simp [save_plot, windowFilter]

/-- Witness for C4 at a missing CSV file. -/
theorem C4_witness :
    (CsvSource.missing ≠ CsvSource.emptyFile) ∧
      ((save_plot CsvSource.missing 24 ≠ SaveResult.raised) ∧
        (save_plot CsvSource.missing 24 = SaveResult.written ↔
          ∃ rows, CsvSource.missing = CsvSource.table false rows ∧
            windowFilter rows 24 ≠ []) ∧
        (∀ rows, CsvSource.missing = CsvSource.table false rows → rows = [] →
          save_plot CsvSource.missing 24 = SaveResult.skippedNoData)) :=
  ⟨by simp, C4_skip_conditions CsvSource.missing 24 (by simp)⟩

/-- Counterexample to C4 as stated: on a CSV file that is empty in the
literal sense (zero bytes, no header), `pd.read_csv` raises
`EmptyDataError` outside the `try` block, so the exception propagates
instead of a printed diagnostic and clean return. -/
theorem C4_counterexample :
    save_plot CsvSource.emptyFile 24 = SaveResult.raised :=
  rfl

/-! ### Sorted lists, interpolation and quantile edges -/

/-- Entries of a non-decreasing list are monotone in the index. -/
theorem sorted_getD_mono (s : List ℚ) (hs : List.Sorted (fun a b => a ≤ b) s)
    (i j : ℕ) (hij : i ≤ j) (hj : j < s.length) : s.getD i 0 ≤ s.getD j 0 := by
  rcases Nat.eq_or_lt_of_le hij with rfl | hlt
  · exact le_refl _
  · rw [List.getD_eq_getElem _ _ (lt_trans hlt hj), List.getD_eq_getElem _ _ hj]
    exact List.pairwise_iff_getElem.mp hs i j (lt_trans hlt hj) hj hlt

/-- The lower interpolation cell value is below the interpolated value. -/
theorem interpAt_ge (s : List ℚ) (hs : List.Sorted (fun a b => a ≤ b) s)
    (h : ℚ) (h0 : 0 ≤ h) : s.getD (Int.floor h).toNat 0 ≤ interpAt s h := by
  set i := (Int.floor h).toNat with hidef
  have hfrac : 0 ≤ h - (i : ℚ) := by
    have h1 : ((i : ℤ) : ℚ) ≤ h := by
      rw [hidef, Int.toNat_of_nonneg (Int.floor_nonneg.mpr h0)]
      exact Int.floor_le h
    push_cast at h1
    linarith
  have hx : s.getD i 0 ≤ s.getD (i + 1) (s.getD i 0) := by
    by_cases hlen : i + 1 < s.length
    · rw [List.getD_eq_getElem _ _ hlen, List.getD_eq_getElem _ _ (by omega)]
      exact List.pairwise_iff_getElem.mp hs i (i + 1) (by omega) hlen (by omega)
    · have hd : s.getD (i + 1) (s.getD i 0) = s.getD i 0 :=
        List.getD_eq_default _ _ (by omega)
      rw [hd]
  unfold interpAt
  rw [← hidef]
  have := mul_nonneg hfrac (sub_nonneg.mpr hx)
  linarith

/-- The upper interpolation cell value bounds the interpolated value
when the upper index is still in range. -/
theorem interpAt_le (s : List ℚ) (hs : List.Sorted (fun a b => a ≤ b) s)
    (h : ℚ) (h0 : 0 ≤ h) (hin : (Int.floor h).toNat + 1 < s.length) :
    interpAt s h ≤ s.getD ((Int.floor h).toNat + 1) 0 := by
  set i := (Int.floor h).toNat with hidef
  have hcast : ((i : ℤ) : ℚ) = ((Int.floor h : ℤ) : ℚ) := by
    rw [hidef, Int.toNat_of_nonneg (Int.floor_nonneg.mpr h0)]
  have hfr1 : h - (i : ℚ) ≤ 1 := by
    have h2 : h < (Int.floor h : ℚ) + 1 := Int.lt_floor_add_one h
    push_cast at hcast
    linarith
  have hfrac : 0 ≤ h - (i : ℚ) := by
    have h1 : ((Int.floor h : ℤ) : ℚ) ≤ h := Int.floor_le h
    push_cast at hcast
    linarith
  have hx01 : s.getD i 0 ≤ s.getD (i + 1) 0 :=
    sorted_getD_mono s hs i (i + 1) (by omega) hin
  have hdef : s.getD (i + 1) (s.getD i 0) = s.getD (i + 1) 0 := by
    rw [List.getD_eq_getElem _ _ hin, List.getD_eq_getElem _ _ hin]
  unfold interpAt
  rw [← hidef, hdef]
  have := mul_le_of_le_one_left (sub_nonneg.mpr hx01) hfr1
  have h2 := mul_nonneg hfrac (sub_nonneg.mpr hx01)
  nlinarith [mul_le_mul_of_nonneg_right hfr1 (sub_nonneg.mpr hx01)]

/-- Interpolation into a sorted list is monotone in the fractional
index. -/
theorem interpAt_mono (s : List ℚ) (hs : List.Sorted (fun a b => a ≤ b) s)
    (hne : s ≠ []) (h1 h2 : ℚ) (h10 : 0 ≤ h1) (h12 : h1 ≤ h2)
    (h2le : h2 ≤ (s.length : ℚ) - 1) : interpAt s h1 ≤ interpAt s h2 := by
  have h20 : 0 ≤ h2 := le_trans h10 h12
  have hlen : 1 ≤ s.length := List.length_pos.mpr hne
  have hi12 : (Int.floor h1).toNat ≤ (Int.floor h2).toNat :=
    Int.toNat_le_toNat (Int.floor_mono h12)
  have hfl2 : Int.floor h2 ≤ (s.length : ℤ) - 1 := by
    have hc : ((s.length : ℚ) - 1) = (((s.length : ℤ) - 1 : ℤ) : ℚ) := by
      push_cast
      ring
    have := Int.floor_mono h2le
    rwa [hc, Int.floor_intCast] at this
  have hi2 : (Int.floor h2).toNat ≤ s.length - 1 := by omega
  rcases Nat.eq_or_lt_of_le hi12 with heq | hlt
  · have hcast : (((Int.floor h1).toNat : ℤ) : ℚ) = ((Int.floor h1 : ℤ) : ℚ) := by
      rw [Int.toNat_of_nonneg (Int.floor_nonneg.mpr h10)]
    have hfr : h1 - ((Int.floor h1).toNat : ℚ) ≤ h2 - ((Int.floor h1).toNat : ℚ) := by
      linarith
    have hx : s.getD (Int.floor h1).toNat 0 ≤
        s.getD ((Int.floor h1).toNat + 1) (s.getD (Int.floor h1).toNat 0) := by
      by_cases hr : (Int.floor h1).toNat + 1 < s.length
      · rw [List.getD_eq_getElem _ _ hr, List.getD_eq_getElem _ _ (by omega)]
        exact List.pairwise_iff_getElem.mp hs _ _ (by omega) hr (by omega)
      · have hd : s.getD ((Int.floor h1).toNat + 1) (s.getD (Int.floor h1).toNat 0) =
            s.getD (Int.floor h1).toNat 0 :=
          List.getD_eq_default _ _ (by omega)
        rw [hd]
    unfold interpAt
    rw [← heq]
    have := mul_le_mul_of_nonneg_right hfr (sub_nonneg.mpr hx)
    linarith
  · calc interpAt s h1 ≤ s.getD ((Int.floor h1).toNat + 1) 0 :=
          interpAt_le s hs h1 h10 (by omega)
      _ ≤ s.getD (Int.floor h2).toNat 0 :=
          sorted_getD_mono s hs _ _ hlt (by omega)
      _ ≤ interpAt s h2 := interpAt_ge s hs h2 h20

/-- The quantile of a sorted nonempty list is monotone in the
probability over `[0, 1]`. -/
theorem quantileSorted_mono (s : List ℚ) (hs : List.Sorted (fun a b => a ≤ b) s)
    (hne : s ≠ []) (p q : ℚ) (hp : 0 ≤ p) (hpq : p ≤ q) (hq : q ≤ 1) :
    quantileSorted s p ≤ quantileSorted s q := by
  have hn : (0 : ℚ) ≤ (s.length : ℚ) - 1 := by
    have h1 : 1 ≤ s.length := List.length_pos.mpr hne
    have h2 : (1 : ℚ) ≤ (s.length : ℚ) := by exact_mod_cast h1
    linarith
  unfold quantileSorted
  apply interpAt_mono s hs hne _ _ (mul_nonneg hp hn)
    (mul_le_mul_of_nonneg_right hpq hn)
  calc q * ((s.length : ℚ) - 1) ≤ 1 * ((s.length : ℚ) - 1) :=
        mul_le_mul_of_nonneg_right hq hn
    _ = (s.length : ℚ) - 1 := one_mul _

/-- Dropping duplicate edges yields a sublist of the values. -/
theorem dropDuplicateEdges_subset :
    ∀ (l : List ℚ) (x : ℚ), x ∈ dropDuplicateEdges l → x ∈ l
  | [], x, hx => by simpa [dropDuplicateEdges] using hx
  | [a], x, hx => by simpa [dropDuplicateEdges] using hx
  | a :: b :: rest, x, hx => by
      by_cases hab : a = b
      · exact List.mem_cons_of_mem a
          (dropDuplicateEdges_subset (b :: rest) x
            (by simpa [dropDuplicateEdges, hab] using hx))
      · rcases List.mem_cons.mp (by simpa [dropDuplicateEdges, hab] using hx) with
          rfl | hx2
        · exact List.mem_cons_self _ _
        · exact List.mem_cons_of_mem a (dropDuplicateEdges_subset (b :: rest) x hx2)

/-- Dropping duplicate edges preserves sortedness. -/
theorem dropDuplicateEdges_sorted :
    ∀ (l : List ℚ), List.Sorted (fun a b => a ≤ b) l →
      List.Sorted (fun a b => a ≤ b) (dropDuplicateEdges l)
  | [], _ => by simp [dropDuplicateEdges]
  | [a], _ => by simp [dropDuplicateEdges]
  | a :: b :: rest, hs => by
      have htail : List.Sorted (fun a b => a ≤ b) (b :: rest) := hs.of_cons
      by_cases hab : a = b
      · simpa [dropDuplicateEdges, hab] using
          dropDuplicateEdges_sorted (b :: rest) htail
      · rw [show dropDuplicateEdges (a :: b :: rest) =
            a :: dropDuplicateEdges (b :: rest) by simp [dropDuplicateEdges, hab]]
        refine List.sorted_cons.mpr
          ⟨?_, dropDuplicateEdges_sorted (b :: rest) htail⟩
        intro y hy
        exact (List.sorted_cons.mp hs).1 y (dropDuplicateEdges_subset (b :: rest) y hy)

/-- Dropping duplicate edges does not lengthen the list. -/
theorem dropDuplicateEdges_length_le :
    ∀ (l : List ℚ), (dropDuplicateEdges l).length ≤ l.length
  | [] => by simp [dropDuplicateEdges]
  | [a] => by simp [dropDuplicateEdges]
  | a :: b :: rest => by
      have ih := dropDuplicateEdges_length_le (b :: rest)
      by_cases hab : a = b
      · simp only [dropDuplicateEdges, if_pos hab]
        simp at ih ⊢
        omega
      · simp only [dropDuplicateEdges, if_neg hab]
        simp at ih ⊢
        omega

/-- The quantile edge values of a nonempty column are non-decreasing. -/
theorem realEdges_sorted (ts : List ℚ) (num_bins : ℕ) (hts : ts ≠ []) :
    List.Sorted (fun a b => a ≤ b) (realEdges ts num_bins) := by
  unfold realEdges
  have hp : List.Pairwise (fun a b => a < b ∧ b ≤ num_bins)
      (List.range (num_bins + 1)) := by
    refine List.Pairwise.imp_of_mem ?_ (List.sorted_lt_range (num_bins + 1))
    intro a b ha hb hab
    exact ⟨hab, by have := List.mem_range.mp hb; omega⟩
  show List.Pairwise _ _
  refine List.Pairwise.map _ ?_ hp
  intro k k2 hkk
  obtain ⟨hlt, hk2le⟩ := hkk
  have hsorted : List.Sorted (fun a b => a ≤ b) (sortAsc ts) :=
    List.sorted_insertionSort _ ts
  have hsne : sortAsc ts ≠ [] := by
    intro hc
    have hlen : (sortAsc ts).length = ts.length :=
      (List.perm_insertionSort _ ts).length_eq
    rw [hc] at hlen
    exact hts (List.length_eq_zero.mp hlen.symm)
  have hnb : 0 < num_bins := by omega
  have hnbQ : (0 : ℚ) < (num_bins : ℚ) := by exact_mod_cast hnb
  apply quantileSorted_mono _ hsorted hsne
  · exact div_nonneg (Nat.cast_nonneg k) (Nat.cast_nonneg num_bins)
  · have hkk : (k : ℚ) ≤ (k2 : ℚ) := by exact_mod_cast hlt.le
    exact (div_le_div_iff_of_pos_right hnbQ).mpr hkk
  · rw [div_le_one hnbQ]
    exact_mod_cast hk2le

/-- Exactly `num_bins + 1` quantile edges are computed. -/
theorem realEdges_length (ts : List ℚ) (num_bins : ℕ) :
    (realEdges ts num_bins).length = num_bins + 1 := by
  unfold realEdges
  rw [List.length_map, List.length_range]

/-- Extracting the values of an all-present edge list. -/
theorem filterMap_id_map_some (l : List ℚ) : (l.map some).filterMap id = l := by
  induction l with
  | nil => rfl
  | cons a t ih => simp [ih]

/-- Deduplication commutes with marking every edge present. -/
theorem dropDuplicateEdges_map_some :
    ∀ l : List ℚ, dropDuplicateEdges (l.map some) = (dropDuplicateEdges l).map some
  | [] => rfl
  | [a] => rfl
  | a :: b :: rest => by
      by_cases hab : a = b
      · rw [show (a :: b :: rest).map some = some a :: some b :: rest.map some from rfl]
        rw [show dropDuplicateEdges (some a :: some b :: rest.map some) =
            dropDuplicateEdges (some b :: rest.map some) from by
          simp [dropDuplicateEdges, hab]]
        rw [show (some b :: rest.map some) = (b :: rest).map some from rfl]
        rw [dropDuplicateEdges_map_some (b :: rest)]
        rw [show dropDuplicateEdges (a :: b :: rest) =
            dropDuplicateEdges (b :: rest) from by
          simp [dropDuplicateEdges, hab]]
      · rw [show (a :: b :: rest).map some = some a :: some b :: rest.map some from rfl]
        rw [show dropDuplicateEdges (some a :: some b :: rest.map some) =
            some a :: dropDuplicateEdges (some b :: rest.map some) from by
          simp [dropDuplicateEdges, hab]]
        rw [show (some b :: rest.map some) = (b :: rest).map some from rfl]
        rw [dropDuplicateEdges_map_some (b :: rest)]
        rw [show dropDuplicateEdges (a :: b :: rest) =
            a :: dropDuplicateEdges (b :: rest) from by
          simp [dropDuplicateEdges, hab]]
        rfl

/-- Constant edge lists deduplicate to a single edge. -/
theorem dropDuplicateEdges_replicate {α : Type} [DecidableEq α] (n : ℕ) (t : α) :
    dropDuplicateEdges (List.replicate (n + 1) t) = [t] := by
  induction n with
  | zero => simp [dropDuplicateEdges]
  | succ n ih =>
      rw [List.replicate_succ, List.replicate_succ]
      rw [show dropDuplicateEdges (t :: t :: List.replicate n t) =
          dropDuplicateEdges (t :: List.replicate n t) from by
        simp [dropDuplicateEdges]]
      rw [← List.replicate_succ]
      exact ih

/-- The quantiles of an empty column are all missing. -/
theorem rawEdges_nil (num_bins : ℕ) :
    rawEdges ([] : List ℚ) num_bins = List.replicate (num_bins + 1) none := by
  unfold rawEdges
  rw [if_pos rfl]

/-- On a nonempty column the final edges are the deduplicated quantile
values (deduplication skipped when exactly two edges were requested). -/
theorem binEdges_of_ne_nil (ts : List ℚ) (num_bins : ℕ) (hts : ts ≠ []) :
    binEdges ts num_bins =
      if (realEdges ts num_bins).length = 2 then realEdges ts num_bins
      else dropDuplicateEdges (realEdges ts num_bins) := by
  unfold binEdges
  simp only [qcutEdges, rawEdges, if_neg hts, List.length_map]
  by_cases h2 : (realEdges ts num_bins).length = 2
  · rw [if_pos h2, if_pos h2, filterMap_id_map_some]
  · rw [if_neg h2, if_neg h2, dropDuplicateEdges_map_some, filterMap_id_map_some]

/-- An empty column yields no usable edges. -/
theorem binEdges_nil (num_bins : ℕ) : binEdges [] num_bins = [] := by
  unfold binEdges
  simp only [qcutEdges, rawEdges_nil, List.length_replicate]
  by_cases h1 : num_bins + 1 = 2
  · rw [if_pos h1, h1]
    rfl
  · rw [if_neg h1, dropDuplicateEdges_replicate]
    rfl

/-- On an empty column, any requested bin count other than 1 keeps a
single (missing) edge: zero intervals and no failure. -/
theorem qcutEdges_nil (num_bins : ℕ) (h : num_bins ≠ 1) :
    qcutEdges ([] : List ℚ) num_bins = [none] := by
  simp only [qcutEdges, rawEdges_nil, List.length_replicate]
  rw [if_neg (by omega)]
  exact dropDuplicateEdges_replicate num_bins none

/-- The final edge list is non-decreasing. -/
theorem binEdges_sorted (ts : List ℚ) (num_bins : ℕ) :
    List.Sorted (fun a b => a ≤ b) (binEdges ts num_bins) := by
  by_cases hts : ts = []
  · rw [hts, binEdges_nil]
    exact List.sorted_nil
  · rw [binEdges_of_ne_nil ts num_bins hts]
    by_cases h2 : (realEdges ts num_bins).length = 2
    · rw [if_pos h2]
      exact realEdges_sorted ts num_bins hts
    · rw [if_neg h2]
      exact dropDuplicateEdges_sorted _ (realEdges_sorted ts num_bins hts)

/-- At most `num_bins + 1` final edges survive. -/
theorem binEdges_length_le (ts : List ℚ) (num_bins : ℕ) :
    (binEdges ts num_bins).length ≤ num_bins + 1 := by
  by_cases hts : ts = []
  · rw [hts, binEdges_nil]
    simp
  · rw [binEdges_of_ne_nil ts num_bins hts]
    by_cases h2 : (realEdges ts num_bins).length = 2
    · rw [if_pos h2]
      exact le_of_eq (realEdges_length ts num_bins)
    · rw [if_neg h2]
      exact le_trans (dropDuplicateEdges_length_le _)
        (le_of_eq (realEdges_length ts num_bins))

/-- The script never obtains more intervals than the requested bin
count. -/
theorem binCount_le (ts : List ℚ) (num_bins : ℕ) : binCount ts num_bins ≤ num_bins := by
  unfold binCount
  have := binEdges_length_le ts num_bins
  omega

/-- C6 (amended): smoothing an empty collection yields an empty result
for every requested bin count other than 1 - the quantile edges of the
empty column are all missing and collapse to a single edge, so there
are no intervals, no failure and no output rows; at requested bin count
exactly 1 the two missing edges skip deduplication and the qcut call
raises instead of returning. -/
theorem C6_empty_input_behavior (col : Row → ℚ) (num_bins : ℕ) (h : num_bins ≠ 1) :
    qcutRaises (([] : List Row).map Row.Timestamp) num_bins = false ∧
      smooth_data [] col num_bins = [] := by
  constructor
  · rw [show ([] : List Row).map Row.Timestamp = ([] : List ℚ) from rfl]
    unfold qcutRaises
    rw [qcutEdges_nil num_bins h]
    rfl
  · unfold smooth_data
    rw [show binCount (([] : List Row).map Row.Timestamp) num_bins = 0 from by
      unfold binCount
      rw [show ([] : List Row).map Row.Timestamp = ([] : List ℚ) from rfl]
      rw [binEdges_nil]
      rfl]
    rfl

/-- Witness for C6 at the script's 100 bins. -/
theorem C6_witness :
    ((100 : ℕ) ≠ 1) ∧
      (qcutRaises (([] : List Row).map Row.Timestamp) 100 = false ∧
        smooth_data [] Row.Temperature_C 100 = []) :=
  ⟨by norm_num, C6_empty_input_behavior Row.Temperature_C 100 (by norm_num)⟩

/-- Counterexample to C6 as stated: on the empty timestamp column with
requested bin count 1 the two quantile edges are both missing, their
count of exactly two skips deduplication, and the label construction
therefore meets a missing edge with an interval to build - the
`Categorical` constructor raises on the null category instead of
returning an empty result. -/
theorem C6_counterexample :
    qcutEdges (([] : List Row).map Row.Timestamp) 1 = [none, none] ∧
      qcutRaises (([] : List Row).map Row.Timestamp) 1 = true :=
  ⟨rfl, rfl⟩

/-- In a sorted list, every index below the count of elements smaller
than `v` holds an element smaller than `v`. -/
theorem countP_lt_getD (l : List ℚ) (hs : List.Sorted (fun a b => a ≤ b) l) (v : ℚ) :
    ∀ j, j < l.countP (fun e => decide (e < v)) → l.getD j 0 < v := by
  induction l with
  | nil => intro j hj; simp at hj
  | cons a t ih =>
      intro j hj
      by_cases hav : a < v
      · have hc : (a :: t).countP (fun e => decide (e < v)) =
            t.countP (fun e => decide (e < v)) + 1 := by
          rw [List.countP_cons]
          simp [hav]
        cases j with
        | zero => simpa using hav
        | succ j =>
            rw [List.getD_cons_succ]
            apply ih hs.of_cons
            rw [hc] at hj
            omega
      · have ht0 : t.countP (fun e => decide (e < v)) = 0 := by
          apply List.countP_eq_zero.mpr
          intro x hx
          have hax : a ≤ x := (List.sorted_cons.mp hs).1 x hx
          simp only [decide_eq_true_eq]
          intro hxv
          exact hav (lt_of_le_of_lt hax hxv)
        rw [List.countP_cons] at hj
        simp [hav, ht0] at hj

/-- In a sorted list, the entry at the index given by the count of
elements smaller than `v` is at least `v` (when in range). -/
theorem getD_countP_ge (l : List ℚ) (hs : List.Sorted (fun a b => a ≤ b) l) (v : ℚ)
    (h : l.countP (fun e => decide (e < v)) < l.length) :
    v ≤ l.getD (l.countP (fun e => decide (e < v))) 0 := by
  induction l with
  | nil => simp at h
  | cons a t ih =>
      by_cases hav : a < v
      · have hc : (a :: t).countP (fun e => decide (e < v)) =
            t.countP (fun e => decide (e < v)) + 1 := by
          rw [List.countP_cons]
          simp [hav]
        rw [hc, List.getD_cons_succ]
        apply ih hs.of_cons
        rw [hc] at h
        simp at h
        omega
      · have ht0 : t.countP (fun e => decide (e < v)) = 0 := by
          apply List.countP_eq_zero.mpr
          intro x hx
          have hax : a ≤ x := (List.sorted_cons.mp hs).1 x hx
          simp only [decide_eq_true_eq]
          intro hxv
          exact hav (lt_of_le_of_lt hax hxv)
        have hc : (a :: t).countP (fun e => decide (e < v)) = 0 := by
          rw [List.countP_cons]
          simp [hav, ht0]
        rw [hc, List.getD_cons_zero]
        exact not_lt.mp hav

/-- Unfolding of a successful interval assignment: the raw id is
`i + 1`, and it is strictly inside `[1, len(edges))`. -/
theorem assignBin_spec (edges : List ℚ) (v : ℚ) (i : ℕ)
    (h : assignBin edges v = some i) :
    binIdOf edges v = i + 1 ∧ i + 1 < edges.length := by
  have hcases : ¬(binIdOf edges v = 0 ∨ binIdOf edges v = edges.length) ∧
      binIdOf edges v - 1 = i := by
    by_cases hc : binIdOf edges v = 0 ∨ binIdOf edges v = edges.length
    · simp only [assignBin, if_pos hc] at h
      cases h
    · simp only [assignBin, if_neg hc] at h
      exact ⟨hc, by injection h⟩
  obtain ⟨hne, hval⟩ := hcases
  push_neg at hne
  have hle : binIdOf edges v ≤ edges.length := by
    by_cases hh : edges.head? = some v
    · have h1 : binIdOf edges v = 1 := by simp [binIdOf, hh]
      cases edges with
      | nil => simp at hh
      | cons a t => simp [h1]
    · have h1 : binIdOf edges v = edges.countP (fun e => decide (e < v)) := by
        simp [binIdOf, hh]
      rw [h1]
      exact List.countP_le_length _
  constructor
  · omega
  · omega

/-- A value assigned to interval `i` is at most the upper edge of that
interval. -/
theorem binned_le_upper_edge (edges : List ℚ)
    (hs : List.Sorted (fun a b => a ≤ b) edges) (v : ℚ) (i : ℕ)
    (h : assignBin edges v = some i) : v ≤ edges.getD (i + 1) 0 := by
  obtain ⟨hid, hlen⟩ := assignBin_spec edges v i h
  by_cases hh : edges.head? = some v
  · have hid1 : binIdOf edges v = 1 := by simp [binIdOf, hh]
    have hi0 : i = 0 := by omega
    subst hi0
    have h0 : edges.getD 0 0 = v := by
      cases edges with
      | nil => simp at hh
      | cons a t =>
          have : a = v := by simpa using hh
          simp [this]
    rw [← h0]
    exact sorted_getD_mono edges hs 0 1 (by omega) (by omega)
  · have hidc : binIdOf edges v = edges.countP (fun e => decide (e < v)) := by
      simp [binIdOf, hh]
    have hcnt : edges.countP (fun e => decide (e < v)) = i + 1 := by
      rw [← hidc, hid]
    have := getD_countP_ge edges hs v (by rw [hcnt]; exact hlen)
    rwa [hcnt] at this

/-- A value assigned to an interval `i ≥ 1` is strictly above the lower
edge of that interval. -/
theorem binned_gt_lower_edge (edges : List ℚ)
    (hs : List.Sorted (fun a b => a ≤ b) edges) (v : ℚ) (i : ℕ)
    (h : assignBin edges v = some i) (hi : 1 ≤ i) : edges.getD i 0 < v := by
  obtain ⟨hid, hlen⟩ := assignBin_spec edges v i h
  by_cases hh : edges.head? = some v
  · have hid1 : binIdOf edges v = 1 := by simp [binIdOf, hh]
    omega
  · have hidc : binIdOf edges v = edges.countP (fun e => decide (e < v)) := by
      simp [binIdOf, hh]
    apply countP_lt_getD edges hs v
    rw [← hidc, hid]
    omega

/-- A median is bounded above by any upper bound of the values. -/
theorem median_le_of_forall_le (l : List ℚ) (c m : ℚ)
    (hb : ∀ x ∈ l, x ≤ c) (hm : median l = some m) : m ≤ c := by
  unfold median at hm
  have hmem : ∀ x ∈ sortAsc l, x ≤ c := by
    intro x hx
    exact hb x ((List.perm_insertionSort _ l).mem_iff.mp hx)
  by_cases h0 : (sortAsc l).length = 0
  · rw [if_pos h0] at hm
    cases hm
  · rw [if_neg h0] at hm
    by_cases hq : (sortAsc l).length % 2 = 1
    · rw [if_pos hq] at hm
      injection hm with hm
      have hin : (sortAsc l).length / 2 < (sortAsc l).length := by omega
      have hel : (sortAsc l).getD ((sortAsc l).length / 2) 0 ∈ sortAsc l := by
        rw [List.getD_eq_getElem _ _ hin]
        exact List.getElem_mem hin
      rw [← hm]
      exact hmem _ hel
    · rw [if_neg hq] at hm
      injection hm with hm
      have hin2 : (sortAsc l).length / 2 < (sortAsc l).length := by omega
      have hin1 : (sortAsc l).length / 2 - 1 < (sortAsc l).length := by omega
      have hel1 : (sortAsc l).getD ((sortAsc l).length / 2 - 1) 0 ∈ sortAsc l := by
        rw [List.getD_eq_getElem _ _ hin1]
        exact List.getElem_mem hin1
      have hel2 : (sortAsc l).getD ((sortAsc l).length / 2) 0 ∈ sortAsc l := by
        rw [List.getD_eq_getElem _ _ hin2]
        exact List.getElem_mem hin2
      have hb1 := hmem _ hel1
      have hb2 := hmem _ hel2
      rw [← hm]
      linarith

/-- A median is bounded below by any lower bound of the values. -/
theorem le_median_of_forall_le (l : List ℚ) (c m : ℚ)
    (hb : ∀ x ∈ l, c ≤ x) (hm : median l = some m) : c ≤ m := by
  unfold median at hm
  have hmem : ∀ x ∈ sortAsc l, c ≤ x := by
    intro x hx
    exact hb x ((List.perm_insertionSort _ l).mem_iff.mp hx)
  by_cases h0 : (sortAsc l).length = 0
  · rw [if_pos h0] at hm
    cases hm
  · rw [if_neg h0] at hm
    by_cases hq : (sortAsc l).length % 2 = 1
    · rw [if_pos hq] at hm
      injection hm with hm
      have hin : (sortAsc l).length / 2 < (sortAsc l).length := by omega
      have hel : (sortAsc l).getD ((sortAsc l).length / 2) 0 ∈ sortAsc l := by
        rw [List.getD_eq_getElem _ _ hin]
        exact List.getElem_mem hin
      rw [← hm]
      exact hmem _ hel
    · rw [if_neg hq] at hm
      injection hm with hm
      have hin2 : (sortAsc l).length / 2 < (sortAsc l).length := by omega
      have hin1 : (sortAsc l).length / 2 - 1 < (sortAsc l).length := by omega
      have hel1 : (sortAsc l).getD ((sortAsc l).length / 2 - 1) 0 ∈ sortAsc l := by
        rw [List.getD_eq_getElem _ _ hin1]
        exact List.getElem_mem hin1
      have hel2 : (sortAsc l).getD ((sortAsc l).length / 2) 0 ∈ sortAsc l := by
        rw [List.getD_eq_getElem _ _ hin2]
        exact List.getElem_mem hin2
      have hb1 := hmem _ hel1
      have hb2 := hmem _ hel2
      rw [← hm]
      linarith

/-- A mean lies between any bounds of the values. -/
theorem mean_bounds (l : List ℚ) (lo hi : ℚ)
    (hb : ∀ x ∈ l, lo ≤ x ∧ x ≤ hi) (m : ℚ) (hm : mean l = some m) :
    lo ≤ m ∧ m ≤ hi := by
  cases l with
  | nil => simp [mean] at hm
  | cons a t =>
      have hm2 : (a :: t).sum / (((a :: t).length : ℕ) : ℚ) = m := by
        simpa [mean] using hm
      have hlenpos : 0 < (a :: t).length := by simp
      have hlen : (0 : ℚ) < (((a :: t).length : ℕ) : ℚ) := by exact_mod_cast hlenpos
      constructor
      · have hsum : ((a :: t).length : ℚ) * lo ≤ (a :: t).sum := by
          have h1 := List.card_nsmul_le_sum (l := a :: t) (n := lo)
            (fun x hx => (hb x hx).1)
          rwa [nsmul_eq_mul] at h1
        rw [← hm2, le_div_iff hlen]
        linarith
      · have hsum : (a :: t).sum ≤ ((a :: t).length : ℚ) * hi := by
          have h1 := List.sum_le_card_nsmul (l := a :: t) (n := hi)
            (fun x hx => (hb x hx).2)
          rwa [nsmul_eq_mul] at h1
        rw [← hm2, div_le_iff hlen]
        linarith

/-- The smoothed output has one row per surviving interval. -/
theorem smooth_data_length (rows : List Row) (col : Row → ℚ) (num_bins : ℕ) :
    (smooth_data rows col num_bins).length =
      binCount (rows.map Row.Timestamp) num_bins := by
  unfold smooth_data
  rw [List.length_map, List.length_range]

/-- The `k`-th smoothed output row is the mean / median pair of the
`k`-th interval's rows. -/
theorem smooth_data_getD (rows : List Row) (col : Row → ℚ) (num_bins k : ℕ)
    (hk : k < binCount (rows.map Row.Timestamp) num_bins) :
    (smooth_data rows col num_bins).getD k (none, none) =
      (mean ((binMembers rows num_bins k).map col),
        median ((binMembers rows num_bins k).map Row.Timestamp)) := by
  unfold smooth_data
  rw [List.getD_eq_getElem _ _ (by rw [List.length_map, List.length_range]; exact hk)]
  simp

/-- A row of interval `i` is an input row assigned to interval `i`. -/
theorem mem_binMembers (rows : List Row) (num_bins i : ℕ) (r : Row)
    (hr : r ∈ binMembers rows num_bins i) :
    r ∈ rows ∧
      assignBin (binEdges (rows.map Row.Timestamp) num_bins) r.Timestamp = some i := by
  have h := List.mem_filter.mp hr
  exact ⟨h.1, of_decide_eq_true h.2⟩

/-- C3 (amended): for a nonempty input the smoother never produces more
output rows than the requested bin count, and the output timestamps of
the nonempty bins are non-decreasing in bin order. -/
theorem C3_bin_count_and_monotone (rows : List Row) (col : Row → ℚ) (num_bins : ℕ)
    (hne : rows ≠ []) :
    (smooth_data rows col num_bins).length ≤ num_bins ∧
      ∀ i j, i < j → j < (smooth_data rows col num_bins).length →
        ∀ a b,
          ((smooth_data rows col num_bins).getD i (none, none)).2 = some a →
          ((smooth_data rows col num_bins).getD j (none, none)).2 = some b →
          a ≤ b := by
  constructor
  · rw [smooth_data_length]
    exact binCount_le _ _
  · intro i j hij hj a b ha hb
    rw [smooth_data_length] at hj
    have hi : i < binCount (rows.map Row.Timestamp) num_bins := lt_trans hij hj
    rw [smooth_data_getD rows col num_bins i hi] at ha
    rw [smooth_data_getD rows col num_bins j hj] at hb
    have hs : List.Sorted (fun x y => x ≤ y)
        (binEdges (rows.map Row.Timestamp) num_bins) := binEdges_sorted _ _
    have hjlen : j < (binEdges (rows.map Row.Timestamp) num_bins).length := by
      have hcnt : binCount (rows.map Row.Timestamp) num_bins =
          (binEdges (rows.map Row.Timestamp) num_bins).length - 1 := rfl
      omega
    have ha2 : a ≤ (binEdges (rows.map Row.Timestamp) num_bins).getD (i + 1) 0 := by
      apply median_le_of_forall_le _ _ _ ?_ ha
      intro x hx
      obtain ⟨r, hrmem, hrx⟩ := List.mem_map.mp hx
      obtain ⟨hrrows, hassign⟩ := mem_binMembers rows num_bins i r hrmem
      rw [← hrx]
      exact binned_le_upper_edge _ hs r.Timestamp i hassign
    have hb2 : (binEdges (rows.map Row.Timestamp) num_bins).getD j 0 ≤ b := by
      apply le_median_of_forall_le _ _ _ ?_ hb
      intro x hx
      obtain ⟨r, hrmem, hrx⟩ := List.mem_map.mp hx
      obtain ⟨hrrows, hassign⟩ := mem_binMembers rows num_bins j r hrmem
      rw [← hrx]
      exact le_of_lt (binned_gt_lower_edge _ hs r.Timestamp j hassign (by omega))
    have hmid : (binEdges (rows.map Row.Timestamp) num_bins).getD (i + 1) 0 ≤
        (binEdges (rows.map Row.Timestamp) num_bins).getD j 0 :=
      sorted_getD_mono _ hs (i + 1) j (by omega) hjlen
    linarith

/-- Witness for C3 on a two-row dataset with three requested bins. -/
theorem C3_witness :
    ([sampleRow 0, sampleRow 10] ≠ []) ∧
      ((smooth_data [sampleRow 0, sampleRow 10] Row.Temperature_C 3).length ≤ 3 ∧
        ∀ i j, i < j →
          j < (smooth_data [sampleRow 0, sampleRow 10] Row.Temperature_C 3).length →
          ∀ a b,
            ((smooth_data [sampleRow 0, sampleRow 10] Row.Temperature_C 3).getD i
                (none, none)).2 = some a →
            ((smooth_data [sampleRow 0, sampleRow 10] Row.Temperature_C 3).getD j
                (none, none)).2 = some b →
            a ≤ b) :=
  ⟨by simp, C3_bin_count_and_monotone [sampleRow 0, sampleRow 10] Row.Temperature_C 3
    (by simp)⟩

/-- Quantiles of a one-element list are that element. -/
theorem quantileSorted_singleton (t p : ℚ) : quantileSorted [t] p = t := by
  unfold quantileSorted interpAt
  norm_num

/-- All quantile edge values of a one-row input coincide. -/
theorem realEdges_singleton (t : ℚ) (num_bins : ℕ) :
    realEdges [t] num_bins = List.replicate (num_bins + 1) t := by
  unfold realEdges
  have hsort : sortAsc [t] = [t] := rfl
  calc (List.range (num_bins + 1)).map
        (fun k : ℕ => quantileSorted (sortAsc [t]) ((k : ℚ) / (num_bins : ℚ)))
      = (List.range (num_bins + 1)).map (fun k : ℕ => t) := by
        apply List.map_congr_left
        intro k hk
        rw [hsort, quantileSorted_singleton]
    _ = List.replicate (num_bins + 1) t := by
        rw [List.map_const']
        rw [List.length_range]

/-- Smoothing a one-row input with any requested bin count other than 1
drops the row (all quantile edges collapse to one) and yields an empty
result. -/
theorem smooth_data_singleton (r : Row) (col : Row → ℚ) (num_bins : ℕ)
    (hnb : num_bins ≠ 1) : smooth_data [r] col num_bins = [] := by
  have hedges : binEdges ([r].map Row.Timestamp) num_bins = [r.Timestamp] := by
    have hmap : [r].map Row.Timestamp = [r.Timestamp] := rfl
    rw [hmap]
    rw [binEdges_of_ne_nil _ _ (by simp)]
    rw [realEdges_singleton, List.length_replicate]
    rw [if_neg (by omega)]
    exact dropDuplicateEdges_replicate num_bins r.Timestamp
  unfold smooth_data
  rw [show binCount ([r].map Row.Timestamp) num_bins = 0 from by
    unfold binCount
    rw [hedges]
    rfl]
  rfl

/-- C5 (amended): the window filter keeps the single row for every
non-negative duration, but the smoother at the script's 100 bins drops
the lone row entirely and returns an empty result, not one bin. -/
theorem C5_single_row (r : Row) (col : Row → ℚ) (H : ℚ) (h : 0 ≤ H) :
    windowFilter [r] H = [r] ∧ smooth_data [r] col 100 = [] := by
  constructor
  · unfold windowFilter
    have hl : latest_time [r] = r.Timestamp := rfl
    rw [hl]
    have hc : (decide (r.Timestamp - H ≤ r.Timestamp)) = true :=
      decide_eq_true (by linarith)
    simp [List.filter, hc, h]
  · exact smooth_data_singleton r col 100 (by norm_num)

/-- Witness for C5 at a concrete row and duration 24. -/
theorem C5_witness :
    ((0 : ℚ) ≤ 24) ∧
      (windowFilter [sampleRow 3] 24 = [sampleRow 3] ∧
        smooth_data [sampleRow 3] Row.Temperature_C 100 = []) :=
  ⟨by norm_num, C5_single_row (sampleRow 3) Row.Temperature_C 24 (by norm_num)⟩

/-- Counterexample to C5 as stated: on a one-row input the smoother
yields zero output bins, not one — `pd.qcut` with `duplicates='drop'`
collapses all 101 identical quantile edges and marks the row missing. -/
theorem C5_counterexample :
    (smooth_data [sampleRow 5] Row.Soil_Moisture_1 100).length = 0 := by
  rw [smooth_data_singleton (sampleRow 5) Row.Soil_Moisture_1 100 (by norm_num)]
  rfl

/-- C9: smoothing two different value columns of the same frame yields
results of identical length with identical timestamp sequences - the
bin partition depends only on the time column, so the renderer may use
one smoothed timestamp column as the shared x-axis. -/
theorem C9_shared_timestamps (rows : List Row) (f g : Row → ℚ) (num_bins : ℕ)
    (hne : rows ≠ []) :
    (smooth_data rows f num_bins).length = (smooth_data rows g num_bins).length ∧
      (smooth_data rows f num_bins).map Prod.snd =
        (smooth_data rows g num_bins).map Prod.snd := by
  constructor
  · rw [smooth_data_length, smooth_data_length]
  · unfold smooth_data
    rw [List.map_map, List.map_map]
    apply List.map_congr_left
    intro k hk
    rfl

/-- Witness for C9 on a one-row dataset and two distinct columns. -/
theorem C9_witness :
    ([sampleRow 1] ≠ []) ∧
      ((smooth_data [sampleRow 1] Row.Soil_Moisture_1 100).length =
          (smooth_data [sampleRow 1] Row.Temperature_C 100).length ∧
        (smooth_data [sampleRow 1] Row.Soil_Moisture_1 100).map Prod.snd =
          (smooth_data [sampleRow 1] Row.Temperature_C 100).map Prod.snd) :=
  ⟨by simp, C9_shared_timestamps [sampleRow 1] Row.Soil_Moisture_1 Row.Temperature_C 100
    (by simp)⟩

/-- Bin means stay within any bounds satisfied by the whole column. -/
theorem smooth_means_bounded (rows : List Row) (col : Row → ℚ) (num_bins : ℕ)
    (lo hi : ℚ) (hb : ∀ r ∈ rows, lo ≤ col r ∧ col r ≤ hi) :
    ∀ p ∈ smooth_data rows col num_bins, ∀ v, p.1 = some v → lo ≤ v ∧ v ≤ hi := by
  intro p hp v hv
  unfold smooth_data at hp
  obtain ⟨k, hkmem, hkp⟩ := List.mem_map.mp hp
  rw [← hkp] at hv
  apply mean_bounds ((binMembers rows num_bins k).map col) lo hi ?_ v hv
  intro x hx
  obtain ⟨r, hrm, hrx⟩ := List.mem_map.mp hx
  rw [← hrx]
  exact hb r (mem_binMembers rows num_bins k r hrm).1

/-- C10: every aggregated mean of a smoothed column lies between any
bounds of that column over the input; in particular every smoothed
soil-moisture value of a calibrated frame lies in `[0, 1]`. -/
theorem C10_aggregates_bounded (rows : List Row) (col : Row → ℚ) (num_bins : ℕ)
    (lo hi : ℚ) (hb : ∀ r ∈ rows, lo ≤ col r ∧ col r ≤ hi) :
    (∀ p ∈ smooth_data rows col num_bins, ∀ v, p.1 = some v → lo ≤ v ∧ v ≤ hi) ∧
      (∀ (rows2 : List Row) (nb2 : ℕ) (c : Row → ℚ),
        c ∈ [Row.Soil_Moisture_1, Row.Soil_Moisture_2,
          Row.Soil_Moisture_3, Row.Soil_Moisture_4] →
        ∀ p ∈ smooth_data (rows2.map applyCalibration) c nb2, ∀ v,
          p.1 = some v → 0 ≤ v ∧ v ≤ 1) := by
  constructor
  · exact smooth_means_bounded rows col num_bins lo hi hb
  · intro rows2 nb2 c hc
    apply smooth_means_bounded
    intro r hr
    obtain ⟨r0, hr0, hrr⟩ := List.mem_map.mp hr
    rw [← hrr]
    simp only [List.mem_cons, List.not_mem_nil, or_false] at hc
    rcases hc with rfl | rfl | rfl | rfl
    · exact scale_moisture_mem _ _ _
    · exact scale_moisture_mem _ _ _
    · exact scale_moisture_mem _ _ _
    · exact scale_moisture_mem _ _ _

/-- Witness for C10 on a one-row dataset, temperature column in
`[0, 50]`. -/
theorem C10_witness :
    (∀ r ∈ [sampleRow 2], (0 : ℚ) ≤ Row.Temperature_C r ∧ Row.Temperature_C r ≤ 50) ∧
      ((∀ p ∈ smooth_data [sampleRow 2] Row.Temperature_C 100, ∀ v,
          p.1 = some v → (0 : ℚ) ≤ v ∧ v ≤ 50) ∧
        (∀ (rows2 : List Row) (nb2 : ℕ) (c : Row → ℚ),
          c ∈ [Row.Soil_Moisture_1, Row.Soil_Moisture_2,
            Row.Soil_Moisture_3, Row.Soil_Moisture_4] →
          ∀ p ∈ smooth_data (rows2.map applyCalibration) c nb2, ∀ v,
            p.1 = some v → 0 ≤ v ∧ v ≤ 1)) :=
  ⟨by
    intro r hr
    rcases List.mem_singleton.mp hr with rfl
    constructor <;> norm_num [sampleRow],
    C10_aggregates_bounded [sampleRow 2] Row.Temperature_C 100 0 50
      (by
        intro r hr
        rcases List.mem_singleton.mp hr with rfl
        constructor <;> norm_num [sampleRow])⟩

/-- Counterexample to C3 as stated: on timestamps `[0, 10]` with three
requested bins the quantile edges are `[0, 10/3, 20/3, 10]`; the middle
bin receives no rows, so the bins are not of equal population (their
populations are 1, 0, 1) and the middle output row, though present,
carries no mean at all. -/
theorem C3_counterexample :
    (smooth_data [sampleRow 0, sampleRow 10] Row.Temperature_C 3).length = 3 ∧
      ((smooth_data [sampleRow 0, sampleRow 10] Row.Temperature_C 3).getD 1
          (none, none)).1 = none ∧
      (binMembers [sampleRow 0, sampleRow 10] 3 0).length = 1 ∧
      (binMembers [sampleRow 0, sampleRow 10] 3 1).length = 0 ∧
      (binMembers [sampleRow 0, sampleRow 10] 3 2).length = 1 := by
  have hmap : [sampleRow 0, sampleRow 10].map Row.Timestamp = [(0 : ℚ), 10] := rfl
  have hraw : realEdges [(0 : ℚ), 10] 3 = [0, 10 / 3, 20 / 3, 10] := by
    unfold realEdges
    rw [show List.range 4 = [0, 1, 2, 3] from rfl]
    rw [show sortAsc [(0 : ℚ), 10] = [(0 : ℚ), 10] from by
      norm_num [sortAsc, List.insertionSort, List.orderedInsert]]
    simp only [List.map_cons, List.map_nil]
    norm_num [quantileSorted, interpAt]
  have hedges : binEdges [(0 : ℚ), 10] 3 = [0, 10 / 3, 20 / 3, 10] := by
    rw [binEdges_of_ne_nil _ _ (by simp), hraw]
    norm_num [dropDuplicateEdges]
  have h0 : assignBin (binEdges [(0 : ℚ), 10] 3) 0 = some 0 := by
    rw [hedges]
    norm_num [assignBin, binIdOf]
  have h10 : assignBin (binEdges [(0 : ℚ), 10] 3) 10 = some 2 := by
    rw [hedges]
    norm_num [assignBin, binIdOf, List.countP_cons]
  have hm0 : binMembers [sampleRow 0, sampleRow 10] 3 0 = [sampleRow 0] := by
    unfold binMembers
    rw [hmap]
    simp [List.filter, sampleRow, h0, h10]
  have hm1 : binMembers [sampleRow 0, sampleRow 10] 3 1 = [] := by
    unfold binMembers
    rw [hmap]
    simp [List.filter, sampleRow, h0, h10]
  have hm2 : binMembers [sampleRow 0, sampleRow 10] 3 2 = [sampleRow 10] := by
    unfold binMembers
    rw [hmap]
    simp [List.filter, sampleRow, h0, h10]
  have hcnt : binCount ([sampleRow 0, sampleRow 10].map Row.Timestamp) 3 = 3 := by
    unfold binCount
    rw [hmap, hedges]
    rfl
  refine ⟨?_, ?_, ?_, ?_, ?_⟩
  · rw [smooth_data_length, hcnt]
  · rw [smooth_data_getD _ _ _ 1 (by rw [hcnt]; omega), hm1]
    rfl
  · rw [hm0]
    rfl
  · rw [hm1]
    rfl
  · rw [hm2]
    rfl
